import Mathlib

/-!
Verification of the super-sudoku repository (src/main.py).

Shallow embedding conventions:
* A board is a list of rows of cells.  A cell holds a `Nat`: `0` stands for
  the blank string and `1`–`9` stand for the digit strings of the Python code.
* Python index accesses `board[r][c]` become `getCell` (out-of-range reads
  return the blank value, which never happens on the 9×9 boards of the
  program), and in-place cell assignment becomes the functional update
  `setCell` threaded through the computation.
* `random.randint` / `random.choice` draws are modelled by an arbitrary
  stream `σ : Nat → Nat` of numbers, reduced modulo the size of the range
  being drawn from, so that universal quantification over `σ` covers every
  possible run of the randomized code.
* Python float arithmetic in the score computation is modelled exactly:
  each float division produces the correctly rounded (round to nearest,
  ties to even) binary64 value of the exact quotient, kept as an integer
  mantissa-exponent pair, and `int()` truncates toward zero.
-/

abbrev Board := List (List Nat)

/-- Reading `board[r][c]`; out-of-range reads give the blank value `0`. -/
def getCell (b : Board) (r c : Nat) : Nat := (b.getD r []).getD c 0

/-- The in-place assignment `board[r][c] = v`, as a functional update. -/
def setCell (b : Board) (r c v : Nat) : Board := b.set r ((b.getD r []).set c v)

/-- Embedding of `can_place` from src/main.py: scan the row and column of the
cell, then the 3×3 box whose origin is `(row / 3 * 3, col / 3 * 3)`, and
report whether the digit is absent from all three scans. -/
def can_place (b : Board) (row col num : Nat) : Bool :=
  if (List.range 9).any (fun i => getCell b row i == num || getCell b i col == num) then
    false
  else
    if (List.range 3).any (fun i => (List.range 3).any (fun j =>
        getCell b (row / 3 * 3 + i) (col / 3 * 3 + j) == num)) then
      false
    else
      true

/-- The row-major scan of `solve_sudoku` for the first blank cell. -/
def findEmpty (b : Board) : Option (Nat × Nat) :=
  (List.range 9).findSome? (fun r =>
    ((List.range 9).find? (fun c => getCell b r c == 0)).map (fun c => (r, c)))

/-- The digit loop of `solve_sudoku` at a blank cell `(r, c)`: try each
candidate that passes `can_place`, recurse through `recur`, and on failure
revert the cell to blank before trying the next candidate. -/
def tryDigits (recur : Board → Bool × Board) (r c : Nat) :
    Board → List Nat → Bool × Board
  | b, [] => (false, b)
  | b, n :: ns =>
    if can_place b r c n then
      match recur (setCell b r c n) with
      | (true, b2) => (true, b2)
      | (false, b2) => tryDigits recur r c (setCell b2 r c 0) ns
    else
      tryDigits recur r c b ns

/-- Embedding of `solve_sudoku` from src/main.py, the classical backtracking
solver.  The recursion of the Python code terminates because every recursive
call fills one more blank cell; the embedding makes this explicit through a
fuel parameter, which `solve_sudoku` below instantiates with more fuel than a
9×9 board can consume, so the fuel-exhaustion branch is never reached. -/
def solveSudoku : Nat → Board → Bool × Board
  | 0, b => (false, b)
  | fuel + 1, b =>
    match findEmpty b with
    | none => (true, b)
    | some (r, c) => tryDigits (solveSudoku fuel) r c b [1, 2, 3, 4, 5, 6, 7, 8, 9]

/-- `solve_sudoku` on a 9×9 board: at most 81 cells are blank, so fuel 100 is
never exhausted. -/
def solve_sudoku (b : Board) : Bool × Board := solveSudoku 100 b

/-- The all-blank 9×9 board built at the start of `generate_sudoku`. -/
def emptyBoard : Board := List.replicate 9 (List.replicate 9 0)

/-- The board that the deterministic backtracking solver produces from the
empty board (checked below in `solve_empty_eq`). -/
def solvedLit : Board :=
  [[1, 2, 3, 4, 5, 6, 7, 8, 9],
   [4, 5, 6, 7, 8, 9, 1, 2, 3],
   [7, 8, 9, 1, 2, 3, 4, 5, 6],
   [2, 1, 4, 3, 6, 5, 8, 9, 7],
   [3, 6, 5, 8, 9, 7, 2, 1, 4],
   [8, 9, 7, 2, 1, 4, 3, 6, 5],
   [5, 3, 1, 6, 4, 2, 9, 7, 8],
   [6, 4, 2, 9, 7, 8, 5, 3, 1],
   [9, 7, 8, 5, 3, 1, 6, 4, 2]]

set_option maxRecDepth 100000 in
/-- Running the backtracking solver on the empty board succeeds and yields
the canonical solved board. -/
theorem solve_empty_eq : solve_sudoku emptyBoard = (true, solvedLit) := by decide

/-! ### List helper lemmas about `set` and `getD` -/

theorem getD_set_self {α : Type} :
    ∀ (l : List α) (i : Nat) (v d : α), i < l.length → (l.set i v).getD i d = v
  | [], i, _, _, h => absurd h (by simp)
  | _ :: _, 0, _, _, _ => rfl
  | _ :: l, i + 1, v, d, h => by
    simpa using getD_set_self l i v d (by simpa using h)

theorem getD_set_ne {α : Type} :
    ∀ (l : List α) {i j : Nat} (v d : α), i ≠ j → (l.set i v).getD j d = l.getD j d
  | [], _, _, _, _, _ => rfl
  | _ :: _, 0, 0, _, _, h => absurd rfl h
  | _ :: _, 0, _ + 1, _, _, _ => rfl
  | _ :: _, _ + 1, 0, _, _, _ => rfl
  | _ :: l, i + 1, j + 1, v, d, h => by
    simpa using getD_set_ne l v d (fun e => h (by omega))

theorem set_getD_self {α : Type} :
    ∀ (l : List α) (i : Nat) (d : α), l.set i (l.getD i d) = l
  | [], _, _ => rfl
  | _ :: _, 0, _ => rfl
  | a :: l, i + 1, d => by simpa using set_getD_self l i d

theorem set_of_getD_eq {α : Type} (l : List α) (i : Nat) (v d : α)
    (h : l.getD i d = v) : l.set i v = l := by
  rw [← h]; exact set_getD_self l i d

/-- Complete description of a read after a blank-write: the written cell
reads back blank and every other cell is unchanged.  This also covers
out-of-range writes, because an out-of-range read is blank already. -/
theorem getCell_setCell_zero (b : Board) (r c i j : Nat) :
    getCell (setCell b r c 0) i j = if i = r ∧ j = c then 0 else getCell b i j := by
  unfold getCell setCell
  by_cases hrow : i = r
  · subst hrow
    by_cases hr : i < b.length
    · rw [getD_set_self b i _ [] hr]
      by_cases hcol : j = c
      · subst hcol
        simp only [and_self, if_pos]
        by_cases hc : j < (b.getD i []).length
        · exact getD_set_self _ j 0 0 hc
        · rw [List.set_eq_of_length_le (by omega)]
          rw [List.getD_eq_getElem?_getD, List.getElem?_eq_none (by omega)]
          rfl
      · rw [if_neg (by tauto), getD_set_ne _ _ _ (fun e => hcol e.symm)]
    · rw [List.set_eq_of_length_le (by omega)]
      rw [List.getD_eq_getElem?_getD (l := b), List.getElem?_eq_none (l := b) (by omega)]
      simp only [Option.getD_none]
      by_cases hcol : j = c
      · subst hcol; simp
      · rw [if_neg (by tauto)]
  · rw [if_neg (by tauto), getD_set_ne b _ _ (fun e => hrow e.symm)]

/-- Writing twice to the same cell keeps only the second write. -/
theorem setCell_setCell (b : Board) (r c v w : Nat) :
    setCell (setCell b r c v) r c w = setCell b r c w := by
  unfold setCell
  by_cases hr : r < b.length
  · rw [getD_set_self b r _ [] hr, List.set_set, List.set_set]
  · rw [List.set_eq_of_length_le (l := b) (by omega)]

/-- Blanking a cell that is already blank leaves the board unchanged. -/
theorem setCell_zero_of_blank (b : Board) (r c : Nat)
    (h : getCell b r c = 0) : setCell b r c 0 = b := by
  unfold setCell
  rw [set_of_getD_eq _ _ _ _ h, set_getD_self]

/-! ### C2: characterization of `can_place` -/

/-- The digit occurs somewhere in row `row` of the board. -/
def digitInRow (b : Board) (row n : Nat) : Prop :=
  ∃ i, i < 9 ∧ getCell b row i = n

/-- The digit occurs somewhere in column `col` of the board. -/
def digitInCol (b : Board) (col n : Nat) : Prop :=
  ∃ i, i < 9 ∧ getCell b i col = n

/-- The digit occurs somewhere in the 3×3 box with origin
`(row / 3 * 3, col / 3 * 3)`. -/
def digitInBox (b : Board) (row col n : Nat) : Prop :=
  ∃ i j, i < 3 ∧ j < 3 ∧ getCell b (row / 3 * 3 + i) (col / 3 * 3 + j) = n

/-- C2.  `can_place` returns `false` exactly when the digit already appears
in the same row, the same column, or the 3×3 box with origin
`(row / 3 * 3, col / 3 * 3)`; it returns `true` otherwise.  The embedding of
`can_place` is a pure function of the board, so it cannot mutate it. -/
theorem can_place_eq_false_iff (b : Board) (row col n : Nat) :
    can_place b row col n = false ↔
      digitInRow b row n ∨ digitInCol b col n ∨ digitInBox b row col n := by
  unfold can_place
  constructor
  · intro h
    by_cases h1 :
        ((List.range 9).any fun i => getCell b row i == n || getCell b i col == n) = true
    · simp only [List.any_eq_true, List.mem_range, Bool.or_eq_true, beq_iff_eq] at h1
      obtain ⟨i, hi, hc⟩ := h1
      rcases hc with hc | hc
      · exact Or.inl ⟨i, hi, hc⟩
      · exact Or.inr (Or.inl ⟨i, hi, hc⟩)
    · rw [if_neg h1] at h
      by_cases h2 :
          ((List.range 3).any fun i => (List.range 3).any fun j =>
            getCell b (row / 3 * 3 + i) (col / 3 * 3 + j) == n) = true
      · simp only [List.any_eq_true, List.mem_range, beq_iff_eq] at h2
        obtain ⟨i, hi, j, hj, hc⟩ := h2
        exact Or.inr (Or.inr ⟨i, j, hi, hj, hc⟩)
      · rw [if_neg h2] at h
        exact absurd h (by simp)
  · intro h
    rcases h with ⟨i, hi, hc⟩ | ⟨i, hi, hc⟩ | ⟨i, j, hi, hj, hc⟩
    · rw [if_pos]
      simp only [List.any_eq_true, List.mem_range, Bool.or_eq_true, beq_iff_eq]
      exact ⟨i, hi, Or.inl hc⟩
    · rw [if_pos]
      simp only [List.any_eq_true, List.mem_range, Bool.or_eq_true, beq_iff_eq]
      exact ⟨i, hi, Or.inr hc⟩
    · by_cases h1 :
          ((List.range 9).any fun i => getCell b row i == n || getCell b i col == n) = true
      · rw [if_pos h1]
      · rw [if_neg h1, if_pos]
        simp only [List.any_eq_true, List.mem_range, beq_iff_eq]
        exact ⟨i, hi, j, hj, hc⟩

/-! ### C1: the solved empty board is a valid Sudoku grid -/

/-- The cells of row `r`, in column order. -/
def rowCells (b : Board) (r : Nat) : List Nat :=
  (List.range 9).map fun c => getCell b r c

/-- The cells of column `c`, in row order. -/
def colCells (b : Board) (c : Nat) : List Nat :=
  (List.range 9).map fun r => getCell b r c

/-- The cells of the `k`-th non-overlapping 3×3 box (`k = 0, ..., 8`), whose
origin is `(k / 3 * 3, k % 3 * 3)`. -/
def boxCells (b : Board) (k : Nat) : List Nat :=
  (List.range 9).map fun t => getCell b (k / 3 * 3 + t / 3) (k % 3 * 3 + t % 3)

/-- The nine cells contain each digit `1`–`9` exactly once. -/
def hasEachDigitOnce (cells : List Nat) : Bool :=
  (List.range 9).all fun d => cells.count (d + 1) == 1

/-- Every cell holds a digit in `[1, 9]` (no blanks). -/
def allCellsDigits (b : Board) : Bool :=
  b.all fun row => row.all fun v => decide (1 ≤ v) && decide (v ≤ 9)

/-- Full Sudoku validity of a solved board: every row, every column and
every non-overlapping 3×3 box contains each digit `1`–`9` exactly once. -/
def validSolvedBoard (b : Board) : Bool :=
  (List.range 9).all fun i =>
    hasEachDigitOnce (rowCells b i) && hasEachDigitOnce (colCells b i) &&
      hasEachDigitOnce (boxCells b i)

/-- C1.  `solve_sudoku` on the completely blank 9×9 board returns `true`,
and the board it produces is completely filled with digits `1`–`9` such that
every row, every column and every non-overlapping 3×3 box contains each
digit exactly once. -/
theorem solve_sudoku_empty_valid :
    (solve_sudoku emptyBoard).1 = true ∧
      allCellsDigits (solve_sudoku emptyBoard).2 = true ∧
      validSolvedBoard (solve_sudoku emptyBoard).2 = true := by
  have h2 : (solve_sudoku emptyBoard).2 = solvedLit := congrArg Prod.snd solve_empty_eq
  refine ⟨congrArg Prod.fst solve_empty_eq, ?_, ?_⟩ <;> rw [h2] <;> decide

/-! ### C9: behaviour of `solve_sudoku` when it fails -/

theorem findEmpty_blank {b : Board} {r c : Nat}
    (h : findEmpty b = some (r, c)) : getCell b r c = 0 := by
  unfold findEmpty at h
  obtain ⟨a, _, ha⟩ := List.exists_of_findSome?_eq_some h
  rcases hf : (List.range 9).find? (fun c => getCell b a c == 0) with _ | c0
  · rw [hf] at ha; exact absurd ha (by simp)
  · rw [hf] at ha
    have hp := List.find?_some hf
    have ha2 : (a, c0) = (r, c) := by simpa using ha
    have h1 : a = r := congrArg Prod.fst ha2
    have h2 : c0 = c := congrArg Prod.snd ha2
    subst h1; subst h2
    simpa using hp

/-- When the digit loop fails it hands back exactly the board it was given:
every candidate it placed has been reverted to blank. -/
theorem tryDigits_false_eq (recur : Board → Bool × Board)
    (hrec : ∀ x res, recur x = (false, res) → res = x) (r c : Nat) :
    ∀ (ns : List Nat) (b res : Board), getCell b r c = 0 →
      tryDigits recur r c b ns = (false, res) → res = b := by
  intro ns
  induction ns with
  | nil =>
    intro b res _ h
    rw [tryDigits] at h
    simpa using (congrArg Prod.snd h).symm
  | cons n ns ih =>
    intro b res hblank h
    rw [tryDigits] at h
    by_cases hcp : can_place b r c n = true
    · rw [if_pos hcp] at h
      rcases hre : recur (setCell b r c n) with ⟨fl, b2⟩
      rcases fl with _ | _
      · rw [hre] at h
        have hb2 : b2 = setCell b r c n := hrec _ _ hre
        have hrev : setCell b2 r c 0 = b := by
          rw [hb2, setCell_setCell, setCell_zero_of_blank b r c hblank]
        have := ih (setCell b2 r c 0) res (by rw [hrev]; exact hblank) (by
          simpa [hre] using h)
        rw [this, hrev]
      · rw [hre] at h
        exact absurd (congrArg Prod.fst h) (by simp)
    · rw [if_neg hcp] at h
      exact ih b res hblank h

/-- The fuelled solver, when it fails, hands back exactly the board it was
given. -/
theorem solveSudoku_false_eq :
    ∀ (fuel : Nat) (b res : Board), solveSudoku fuel b = (false, res) → res = b := by
  intro fuel
  induction fuel with
  | zero =>
    intro b res h
    rw [solveSudoku] at h
    simpa using (congrArg Prod.snd h).symm
  | succ fuel ih =>
    intro b res h
    rw [solveSudoku] at h
    rcases hf : findEmpty b with _ | rc
    · rw [hf] at h
      exact absurd (congrArg Prod.fst h) (by simp)
    · rcases rc with ⟨r, c⟩
      rw [hf] at h
      exact tryDigits_false_eq (solveSudoku fuel) ih r c _ b res (findEmpty_blank hf) h

/-- C9 (amended).  Whenever `solve_sudoku` returns `false`, the board it
hands back is exactly, cell for cell, the board it was given: every
candidate placed during backtracking has been reverted to blank. -/
theorem solve_sudoku_false_unchanged (b res : Board)
    (h : solve_sudoku b = (false, res)) : res = b :=
  solveSudoku_false_eq 100 b res h

/-- A board whose first blank cell `(0, 8)` has all nine digits blocked:
`1`–`8` appear in row 0 and `9` appears in column 8. -/
def stuckBoard : Board :=
  [[1, 2, 3, 4, 5, 6, 7, 8, 0],
   [0, 0, 0, 0, 0, 0, 0, 0, 9],
   [0, 0, 0, 0, 0, 0, 0, 0, 0],
   [0, 0, 0, 0, 0, 0, 0, 0, 0],
   [0, 0, 0, 0, 0, 0, 0, 0, 0],
   [0, 0, 0, 0, 0, 0, 0, 0, 0],
   [0, 0, 0, 0, 0, 0, 0, 0, 0],
   [0, 0, 0, 0, 0, 0, 0, 0, 0],
   [0, 0, 0, 0, 0, 0, 0, 0, 0]]

/-- Witness for the amended C9: on `stuckBoard` the solver returns `false`,
and the theorem then forces the returned board to be the input board. -/
theorem solve_sudoku_false_unchanged_witness :
    (solve_sudoku stuckBoard).2 = stuckBoard :=
  solve_sudoku_false_unchanged stuckBoard (solve_sudoku stuckBoard).2 (by decide)

/-- `b2` agrees with `b` on every filled cell of `b`: exactly the boards the
backtracking search can reach from the partial assignment `b`. -/
def boardExtends (b b2 : Board) : Prop :=
  ∀ r c, getCell b r c ≠ 0 → getCell b2 r c = getCell b r c

/-- No board reachable from `b` is a valid full solution. -/
def noValidCompletion (b : Board) : Prop :=
  ∀ b2, boardExtends b b2 → validSolvedBoard b2 = false

/-- The canonical solved board with cell `(0, 0)` overwritten by a second
`2` (so row 0 can never contain each digit exactly once) and cell `(8, 8)`
blanked.  The blank can still be filled by `can_place`, so the solver
completes this board even though no valid solution is reachable from it. -/
def inconsistentBoard : Board :=
  [[2, 2, 3, 4, 5, 6, 7, 8, 9],
   [4, 5, 6, 7, 8, 9, 1, 2, 3],
   [7, 8, 9, 1, 2, 3, 4, 5, 6],
   [2, 1, 4, 3, 6, 5, 8, 9, 7],
   [3, 6, 5, 8, 9, 7, 2, 1, 4],
   [8, 9, 7, 2, 1, 4, 3, 6, 5],
   [5, 3, 1, 6, 4, 2, 9, 7, 8],
   [6, 4, 2, 9, 7, 8, 5, 3, 1],
   [9, 7, 8, 5, 3, 1, 6, 4, 0]]

/-- C9 counterexample.  `inconsistentBoard` has no reachable valid solution
(cells `(0,0)` and `(0,1)` both hold `2`, so row 0 of every reachable board
counts the digit `2` at least twice), yet `solve_sudoku` returns `true` on
it instead of the `false` the claim demands, and fills the board rather than
leaving it unchanged. -/
theorem solve_sudoku_true_on_unsolvable :
    noValidCompletion inconsistentBoard ∧ (solve_sudoku inconsistentBoard).1 = true := by
  constructor
  · intro b2 hext
    have h0 : getCell b2 0 0 = 2 := by
      have := hext 0 0 (by decide)
      simpa using this
    have h1 : getCell b2 0 1 = 2 := by
      have := hext 0 1 (by decide)
      simpa using this
    by_contra hval
    rw [Bool.not_eq_false] at hval
    unfold validSolvedBoard at hval
    rw [List.all_eq_true] at hval
    have hrow := hval 0 (by decide)
    rw [Bool.and_eq_true, Bool.and_eq_true] at hrow
    have honce := hrow.1.1
    unfold hasEachDigitOnce at honce
    rw [List.all_eq_true] at honce
    have hcount := honce 1 (by decide)
    rw [beq_iff_eq] at hcount
    have hcells : rowCells b2 0 =
        [getCell b2 0 0, getCell b2 0 1, getCell b2 0 2, getCell b2 0 3,
         getCell b2 0 4, getCell b2 0 5, getCell b2 0 6, getCell b2 0 7,
         getCell b2 0 8] := rfl
    rw [hcells, h0, h1] at hcount
    simp [List.count_cons] at hcount
  · decide

/-! ### C6: difficulty validation -/

/-- MIN_DIFFICULTY from src/main.py (line 8): the source sets it to 1. -/
def MIN_DIFFICULTY : Int := 1

/-- MAX_DIFFICULTY from src/main.py (line 9). -/
def MAX_DIFFICULTY : Int := 60

/-- Embedding of `validate_sudoku_args`: a non-integer difficulty (modelled
by `none`) is replaced by `MIN_DIFFICULTY + (MAX_DIFFICULTY - MIN_DIFFICULTY) // 2`,
a too-small integer is clamped up to `MIN_DIFFICULTY` and a too-large one
down to `MAX_DIFFICULTY`.  The Python function writes the corrected value
back into the argument object; the embedding returns it instead. -/
def validate_sudoku_args : Option Int → Int
  | none => MIN_DIFFICULTY + (MAX_DIFFICULTY - MIN_DIFFICULTY) / 2
  | some d =>
    if d < MIN_DIFFICULTY then MIN_DIFFICULTY
    else if d > MAX_DIFFICULTY then MAX_DIFFICULTY
    else d

/-- C6 counterexample.  The claim expects `MIN_DIFFICULTY = 10`, so that 5
clamps up to 10 and a non-integer becomes the midpoint 35; but the source
has `MIN_DIFFICULTY = 1`, so 5 is in bounds (returned unchanged) and the
non-integer default is `1 + 59 // 2 = 30`. -/
theorem validate_sudoku_args_counterexample :
    validate_sudoku_args (some 5) ≠ 10 ∧ validate_sudoku_args none ≠ 35 := by decide

/-- C6 (amended).  With the source constants `MIN_DIFFICULTY = 1` and
`MAX_DIFFICULTY = 60`: an input of 5 is within bounds and left unchanged,
1000 clamps down to 60, and a non-integer input is replaced by
`MIN_DIFFICULTY + (MAX_DIFFICULTY - MIN_DIFFICULTY) // 2 = 30`; the
corrected value is written back into the caller-supplied argument object. -/
theorem validate_sudoku_args_values :
    validate_sudoku_args (some 5) = 5 ∧ validate_sudoku_args (some 1000) = 60 ∧
      validate_sudoku_args none = 30 := by decide

/-! ### C3: the puzzle generator -/

/-- The solved board from which `generate_sudoku` removes cells. -/
def solvedBoard : Board := (solve_sudoku emptyBoard).2

theorem solvedBoard_eq : solvedBoard = solvedLit := congrArg Prod.snd solve_empty_eq

/-- The cell-removal loop of `generate_sudoku`.  Each draw of
`random.randint(0, 8)` twice is modelled by a pair from the stream,
reduced modulo 9; the loop blanks a drawn cell only when it is non-blank,
and stops after `k` cells have been blanked.  `none` means the supplied
draw stream was exhausted before the loop finished (the Python loop would
keep drawing). -/
def removeCells : Board → Nat → List (Nat × Nat) → Option Board
  | b, 0, _ => some b
  | _, _ + 1, [] => none
  | b, k + 1, (r, c) :: draws =>
    if getCell b (r % 9) (c % 9) != 0 then
      removeCells (setCell b (r % 9) (c % 9) 0) k draws
    else
      removeCells b (k + 1) draws

/-- Embedding of `generate_sudoku`: solve the empty board, validate the
difficulty, then remove that many cells. -/
def generate_sudoku (difficulty : Option Int) (draws : List (Nat × Nat)) : Option Board :=
  removeCells solvedBoard (validate_sudoku_args difficulty).toNat draws

/-- The board is a well-formed 9×9 grid. -/
def isNineByNine (b : Board) : Prop := b.length = 9 ∧ ∀ row ∈ b, row.length = 9

/-- Number of blank cells of the board. -/
def countBlanks (b : Board) : Nat := (b.map fun row => row.count 0).sum

/-- Number of non-blank cells of the board. -/
def countFilled (b : Board) : Nat := (b.map fun row => row.countP fun v => v != 0).sum

/-- Every non-blank cell still passes `can_place` against the other filled
cells (the cell itself is blanked before the check, since `can_place` scans
the full row, column and box including the queried cell). -/
def cluesOK (b : Board) : Bool :=
  (List.range 9).all fun r => (List.range 9).all fun c =>
    getCell b r c == 0 || can_place (setCell b r c 0) r c (getCell b r c)

theorem setCell_oob (b : Board) (r c v : Nat) (h : b.length ≤ r) :
    setCell b r c v = b := by
  unfold setCell
  exact List.set_eq_of_length_le h

theorem length_setCell (b : Board) (r c v : Nat) :
    (setCell b r c v).length = b.length := by
  unfold setCell
  exact List.length_set b r _

theorem isNineByNine_setCell (b : Board) (r c v : Nat) (hb : isNineByNine b) :
    isNineByNine (setCell b r c v) := by
  obtain ⟨hlen, hrows⟩ := hb
  by_cases hr : r < b.length
  · constructor
    · rw [length_setCell]; exact hlen
    · intro row hrow
      have hget : b.getD r [] = b[r] := by
        rw [List.getD_eq_getElem?_getD, List.getElem?_eq_getElem hr]; rfl
      rcases List.mem_or_eq_of_mem_set hrow with h | h
      · exact hrows row h
      · subst h
        rw [List.length_set, hget]
        exact hrows _ (List.getElem_mem hr)
  · rw [setCell_oob b r c v (by omega)]
    exact ⟨hlen, hrows⟩

theorem count_set_zero (row : List Nat) : ∀ (c : Nat), c < row.length →
    row.getD c 0 ≠ 0 → (row.set c 0).count 0 = row.count 0 + 1 := by
  induction row with
  | nil => intro c hc _; simp at hc
  | cons a t ih =>
    intro c hc h
    cases c with
    | zero =>
      simp only [List.getD_cons_zero] at h
      simp [List.count_cons, h]
    | succ c =>
      simp only [List.getD_cons_succ] at h
      have := ih c (by simpa using hc) h
      simp only [List.set_cons_succ, List.count_cons, this]
      omega

theorem sum_map_set_row (f : List Nat → Nat) :
    ∀ (b : Board) (r : Nat) (row2 : List Nat), r < b.length →
      f row2 = f (b.getD r []) + 1 →
      ((b.set r row2).map f).sum = (b.map f).sum + 1 := by
  intro b
  induction b with
  | nil => intro r _ hr _; simp at hr
  | cons hd tl ih =>
    intro r row2 hr hf
    cases r with
    | zero =>
      simp only [List.getD_cons_zero] at hf
      simp only [List.set_cons_zero, List.map_cons, List.sum_cons, hf]
      omega
    | succ r =>
      simp only [List.getD_cons_succ] at hf
      have ih2 := ih r row2 (by simpa using hr) hf
      simp only [List.set_cons_succ, List.map_cons, List.sum_cons, ih2]
      omega

theorem countBlanks_setCell_zero (b : Board) (r c : Nat) (hb : isNineByNine b)
    (hr : r < 9) (hc : c < 9) (h : getCell b r c ≠ 0) :
    countBlanks (setCell b r c 0) = countBlanks b + 1 := by
  have hrlen : r < b.length := by rw [hb.1]; exact hr
  have hget : b.getD r [] = b[r] := by
    rw [List.getD_eq_getElem?_getD, List.getElem?_eq_getElem hrlen]; rfl
  have hrowlen : c < (b.getD r []).length := by
    rw [hget, hb.2 _ (List.getElem_mem hrlen)]; exact hc
  exact sum_map_set_row _ b r _ hrlen (count_set_zero _ c hrowlen h)

theorem row_count_split (row : List Nat) :
    row.countP (fun v => v != 0) + row.count 0 = row.length := by
  induction row with
  | nil => rfl
  | cons a t ih =>
    by_cases ha : a = 0
    · subst ha; simp [List.countP_cons, List.count_cons]; omega
    · simp [List.countP_cons, List.count_cons, ha]
      omega

theorem countFilled_add_countBlanks (b : Board) (hb : isNineByNine b) :
    countFilled b + countBlanks b = 81 := by
  obtain ⟨hlen, hrows⟩ := hb
  have key : ∀ (l : Board), (∀ row ∈ l, row.length = 9) →
      (l.map fun row => row.countP fun v => v != 0).sum +
        (l.map fun row => row.count 0).sum = 9 * l.length := by
    intro l
    induction l with
    | nil => intro _; rfl
    | cons hd tl ih =>
      intro hl
      have hhd : hd.countP (fun v => v != 0) + hd.count 0 = 9 := by
        rw [row_count_split, hl hd (List.mem_cons_self hd tl)]
      have := ih (fun row hrow => hl row (List.mem_cons_of_mem _ hrow))
      simp only [List.map_cons, List.sum_cons, List.length_cons]
      omega
  have := key b hrows
  rw [hlen] at this
  exact this

theorem can_place_eq_true_iff (b : Board) (row col n : Nat) :
    can_place b row col n = true ↔
      ¬(digitInRow b row n ∨ digitInCol b col n ∨ digitInBox b row col n) := by
  constructor
  · intro h hocc
    have := (can_place_eq_false_iff b row col n).mpr hocc
    rw [h] at this
    exact Bool.noConfusion this
  · intro h
    rcases hcp : can_place b row col n with _ | _
    · exact absurd ((can_place_eq_false_iff b row col n).mp hcp) h
    · rfl

/-- Blanking cells can only make a placement easier: if the digit is
placeable on `Y` and `X` agrees with `Y` except for blanked cells, the
digit is placeable on `X`. -/
theorem can_place_mono (X Y : Board) (row col n : Nat) (hn : n ≠ 0)
    (hsub : ∀ i j, getCell X i j = getCell Y i j ∨ getCell X i j = 0)
    (h : can_place Y row col n = true) : can_place X row col n = true := by
  rw [can_place_eq_true_iff] at h ⊢
  intro hocc
  apply h
  rcases hocc with ⟨i, hi, hc⟩ | ⟨i, hi, hc⟩ | ⟨i, j, hi, hj, hc⟩
  · rcases hsub row i with he | he
    · exact Or.inl ⟨i, hi, he.symm.trans hc⟩
    · exact absurd ((he.symm.trans hc).symm) hn
  · rcases hsub i col with he | he
    · exact Or.inr (Or.inl ⟨i, hi, he.symm.trans hc⟩)
    · exact absurd ((he.symm.trans hc).symm) hn
  · rcases hsub (row / 3 * 3 + i) (col / 3 * 3 + j) with he | he
    · exact Or.inr (Or.inr ⟨i, j, hi, hj, he.symm.trans hc⟩)
    · exact absurd ((he.symm.trans hc).symm) hn

theorem cluesOK_setCell_zero (b : Board) (r c : Nat)
    (h : cluesOK b = true) : cluesOK (setCell b r c 0) = true := by
  unfold cluesOK at h ⊢
  rw [List.all_eq_true] at h ⊢
  intro r1 hr1
  rw [List.all_eq_true]
  intro c1 hc1
  have hspec := h r1 hr1
  rw [List.all_eq_true] at hspec
  have hspec := hspec c1 hc1
  rw [Bool.or_eq_true] at hspec ⊢
  rw [getCell_setCell_zero]
  by_cases heq : r1 = r ∧ c1 = c
  · left; simp [heq]
  · rw [if_neg heq]
    rcases hspec with hz | hcanp
    · exact Or.inl hz
    · by_cases hzero : getCell b r1 c1 = 0
      · left; simp [hzero]
      · right
        apply can_place_mono _ (setCell b r1 c1 0) r1 c1 _ hzero _ hcanp
        intro i j
        rw [getCell_setCell_zero, getCell_setCell_zero, getCell_setCell_zero]
        by_cases h1 : i = r1 ∧ j = c1
        · simp [h1]
        · by_cases h2 : i = r ∧ j = c
          · simp [h1, h2]
          · simp [h1, h2]

theorem removeCells_spec :
    ∀ (draws : List (Nat × Nat)) (k : Nat) (b res : Board),
      isNineByNine b → cluesOK b = true →
      removeCells b k draws = some res →
      isNineByNine res ∧ cluesOK res = true ∧ countBlanks res = countBlanks b + k := by
  intro draws
  induction draws with
  | nil =>
    intro k b res hb hclue h
    cases k with
    | zero =>
      rw [removeCells] at h
      have : b = res := by simpa using h
      subst this
      exact ⟨hb, hclue, by omega⟩
    | succ k => rw [removeCells] at h; exact absurd h (by simp)
  | cons d rest ih =>
    rcases d with ⟨r, c⟩
    intro k b res hb hclue h
    cases k with
    | zero =>
      rw [removeCells] at h
      have : b = res := by simpa using h
      subst this
      exact ⟨hb, hclue, by omega⟩
    | succ k =>
      rw [removeCells] at h
      by_cases hnz : (getCell b (r % 9) (c % 9) != 0) = true
      · rw [if_pos hnz] at h
        have hnz2 : getCell b (r % 9) (c % 9) ≠ 0 := by simpa using hnz
        have hb2 := isNineByNine_setCell b (r % 9) (c % 9) 0 hb
        have hclue2 := cluesOK_setCell_zero b (r % 9) (c % 9) hclue
        obtain ⟨h1, h2, h3⟩ := ih k _ res hb2 hclue2 h
        refine ⟨h1, h2, ?_⟩
        rw [h3, countBlanks_setCell_zero b _ _ hb (Nat.mod_lt r (by norm_num))
          (Nat.mod_lt c (by norm_num)) hnz2]
        omega
      · rw [if_neg hnz] at h
        exact ih (k + 1) b res hb hclue h

/-- C3.  For a difficulty `k` within `[MIN_DIFFICULTY, MAX_DIFFICULTY]`,
every board produced by `generate_sudoku` (for any terminating run of its
random cell-removal loop) has exactly `k` blank cells, `81 - k` filled
cells, and every filled cell's digit still passes `can_place` against the
other filled cells. -/
theorem generate_sudoku_spec (k : Int) (draws : List (Nat × Nat)) (b : Board)
    (hmin : MIN_DIFFICULTY ≤ k) (hmax : k ≤ MAX_DIFFICULTY)
    (hgen : generate_sudoku (some k) draws = some b) :
    (countBlanks b : Int) = k ∧ (countFilled b : Int) = 81 - k ∧ cluesOK b = true := by
  unfold generate_sudoku at hgen
  unfold MIN_DIFFICULTY at hmin
  unfold MAX_DIFFICULTY at hmax
  have hval : validate_sudoku_args (some k) = k := by
    show (if k < MIN_DIFFICULTY then MIN_DIFFICULTY
      else if k > MAX_DIFFICULTY then MAX_DIFFICULTY else k) = k
    unfold MIN_DIFFICULTY MAX_DIFFICULTY
    rw [if_neg (by omega), if_neg (by omega)]
  rw [hval, solvedBoard_eq] at hgen
  obtain ⟨h1, h2, h3⟩ := removeCells_spec draws k.toNat solvedLit b
    ⟨by decide, by decide⟩ (by decide) hgen
  have hblanks0 : countBlanks solvedLit = 0 := by decide
  have hsplit := countFilled_add_countBlanks b h1
  refine ⟨?_, ?_, h2⟩
  · rw [h3, hblanks0]; omega
  · rw [h3, hblanks0] at *; omega

/-- Witness for C3: removing one cell (difficulty 1, draw `(0,0)`) from the
solved board gives a board with one blank, eighty filled cells and valid
remaining clues. -/
theorem generate_sudoku_spec_witness :
    MIN_DIFFICULTY ≤ (1 : Int) ∧ (1 : Int) ≤ MAX_DIFFICULTY ∧
      generate_sudoku (some 1) [(0, 0)] = some (setCell solvedLit 0 0 0) ∧
      ((countBlanks (setCell solvedLit 0 0 0) : Int) = 1 ∧
        (countFilled (setCell solvedLit 0 0 0) : Int) = 81 - 1 ∧
        cluesOK (setCell solvedLit 0 0 0) = true) := by
  have hgen : generate_sudoku (some 1) [(0, 0)] = some (setCell solvedLit 0 0 0) := by
    unfold generate_sudoku
    rw [solvedBoard_eq]
    decide
  exact ⟨by decide, by decide, hgen,
    generate_sudoku_spec 1 [(0, 0)] _ (by decide) (by decide) hgen⟩

/-! ### C5: the score formula -/

/-- Integer base-2 logarithm step: peel a stride of `k` binary digits. -/
def log2Step (p : Nat × Nat) (k : Nat) : Nat × Nat :=
  if 2 ^ k ≤ p.1 then (p.1 / 2 ^ k, p.2 + k) else p

/-- Base-2 logarithm `⌊log2 n⌋` by binary strides; exact for every
`1 ≤ n < 2 ^ 256`, which covers every magnitude the score model meets. -/
def natLog2 (n : Nat) : Nat :=
  (log2Step (log2Step (log2Step (log2Step (log2Step (log2Step (log2Step (log2Step
    (n, 0) 128) 64) 32) 16) 8) 4) 2) 1).2

/-- Exact comparison `b * 2 ^ e ≤ a` for a signed exponent. -/
def mulPow2Le (b : Nat) (e : Int) (a : Nat) : Bool :=
  if 0 ≤ e then decide (b * 2 ^ e.toNat ≤ a) else decide (b ≤ a * 2 ^ (-e).toNat)

/-- Base-2 logarithm `⌊log2 (a / b)⌋` of a positive fraction: the stride
logarithms of `a` and `b` narrow it to a two-candidate window, settled by
exact comparisons. -/
def floorLog2Frac (a b : Nat) : Int :=
  let g : Int := (natLog2 a : Int) - (natLog2 b : Int)
  if mulPow2Le b (g + 1) a then g + 1 else if mulPow2Le b g a then g else g - 1

/-- The IEEE-754 binary64 result of dividing `a` by `b` (`a ≥ 0`, `b ≥ 1`):
the exact quotient rounded to 53 significant bits, round to nearest with
ties to even, returned as a mantissa-exponent pair of value
`mant * 2 ^ (e - 52)` with `2 ^ 52 ≤ mant ≤ 2 ^ 53`.  This is exactly what
CPython computes for `int / int` and `float / int` true division.  The
exponent is unbounded: overflow (an `OverflowError` in CPython, near
`2 ^ 1024`) and subnormals are not modelled; every value the score pipeline
produces on the inputs settled below stays far from both. -/
def roundNearest (a b : Nat) : Nat × Int :=
  if a = 0 then (0, 0)
  else
    let e := floorLog2Frac a b
    let num := if 0 ≤ 52 - e then a * 2 ^ (52 - e).toNat else a
    let denom := if 0 ≤ 52 - e then b else b * 2 ^ (e - 52).toNat
    let q := num / denom
    let r := num % denom
    let mant := if 2 * r < denom then q
      else if denom < 2 * r then q + 1
      else if q % 2 = 0 then q else q + 1
    (mant, e)

/-- The exact value `mant * 2 ^ (e - 52) / b` as a fraction of naturals:
the operands of the second float division. -/
def dyadicNumDen (m : Nat) (e : Int) (b : Nat) : Nat × Nat :=
  if 0 ≤ e - 52 then (m * 2 ^ (e - 52).toNat, b) else (m, b * 2 ^ (52 - e).toNat)

/-- Floor of the nonnegative float value `mant * 2 ^ (e - 52)`.  The
`int()` function of Python truncates toward zero, which is the floor on
the nonnegative values the score pipeline produces. -/
def dyadicFloor (m : Nat) (e : Int) : Nat :=
  if 0 ≤ e - 52 then m * 2 ^ (e - 52).toNat else m / 2 ^ (52 - e).toNat

/-- The float part of the score computation on the nonnegative integer
numerator `n` and positive integer denominator `den`: the correctly rounded
float division `n / den`, the correctly rounded float division by `15`, and
the final truncation by `int()`. -/
def scorePipeline (n den : Nat) : Nat :=
  let f1 := roundNearest n den
  let nd := dyadicNumDen f1.1 f1.2 15
  let f2 := roundNearest nd.1 nd.2
  dyadicFloor f2.1 f2.2

/-- Embedding of the score computation of `SudokuScore.__init__`:
`difficulty ** 2 * (81 - min(80, guess_count)) / max(1, difficulty)` (an
integer numerator, nonnegative since `difficulty ** 2 ≥ 0` and
`81 - min(80, guess_count) ≥ 1`, divided by a positive integer with
Python float true division), then `score /= 15` (float division), then
`int(score)`.  The `assert difficulty != 0` is modelled by `none`. -/
def sudoku_score (guess_count : Nat) (difficulty : Int) : Option Int :=
  if difficulty = 0 then none
  else
    some ((scorePipeline (difficulty ^ 2 * (81 - min 80 (guess_count : Int))).toNat
      (max 1 difficulty).toNat : Nat) : Int)

set_option maxRecDepth 100000 in
/-- C5 counterexample.  At `guess_count = 80`, `difficulty = 2 ^ 53 + 27`
the score computed through Python floats is not the exact-arithmetic floor
the claim demands: the first float division rounds the odd integer
`2 ^ 53 + 27` half-to-even up to `2 ^ 53 + 28`, and the program stores
`600479950316068` where the exact formula floors to `600479950316067`. -/
theorem sudoku_score_float_counterexample :
    sudoku_score 80 (2 ^ 53 + 27) ≠
      some ⌊(((2 ^ 53 + 27 : Int) ^ 2 * (81 - min 80 ((80 : Nat) : Int)) : Int) : ℚ) /
        ((max 1 (2 ^ 53 + 27 : Int) : Int) : ℚ) / 15⌋ ∧
      sudoku_score 80 (2 ^ 53 + 27) = some 600479950316068 ∧
      ⌊(((2 ^ 53 + 27 : Int) ^ 2 * (81 - min 80 ((80 : Nat) : Int)) : Int) : ℚ) /
        ((max 1 (2 ^ 53 + 27 : Int) : Int) : ℚ) / 15⌋ = (600479950316067 : Int) := by
  have hprog : sudoku_score 80 (2 ^ 53 + 27) = some 600479950316068 := by decide
  have hexact : ⌊(((2 ^ 53 + 27 : Int) ^ 2 * (81 - min 80 ((80 : Nat) : Int)) : Int) : ℚ) /
      ((max 1 (2 ^ 53 + 27 : Int) : Int) : ℚ) / 15⌋ = (600479950316067 : Int) := by
    rw [Int.floor_eq_iff]
    constructor <;> norm_num [min_def, max_def]
  refine ⟨?_, hprog, hexact⟩
  rw [hprog, hexact]
  decide

/-- One case of the exhaustive score check, in pure natural arithmetic:
for difficulty `dn` the first float division acts on the numerator
`dn * dn * kn` where `kn = 81 - min(80, guess_count)`, and the check
compares the float pipeline with the exact floor `dn * kn / 15`. -/
def scoreCheckN (dn kn : Nat) : Bool :=
  scorePipeline (dn * dn * kn) dn == dn * kn / 15

/-- A block of twenty difficulties of the exhaustive score check. -/
def scoreBlockN (d0 : Nat) : Bool :=
  (List.range 20).all fun i => (List.range 81).all fun k => scoreCheckN (d0 + i + 1) (k + 1)

set_option maxRecDepth 1000000 in
set_option maxHeartbeats 4000000 in
theorem scoreBlockN_0 : scoreBlockN 0 = true := by decide

set_option maxRecDepth 1000000 in
set_option maxHeartbeats 4000000 in
theorem scoreBlockN_20 : scoreBlockN 20 = true := by decide

set_option maxRecDepth 1000000 in
set_option maxHeartbeats 4000000 in
theorem scoreBlockN_40 : scoreBlockN 40 = true := by decide

/-- On every difficulty `1..60` and every clamped guess count, the float
pipeline agrees with the exact floor (checked exhaustively above). -/
theorem scoreCheckN_valid (dn kn : Nat) (h1 : 1 ≤ dn) (h60 : dn ≤ 60)
    (hk1 : 1 ≤ kn) (hk81 : kn ≤ 81) :
    scorePipeline (dn * dn * kn) dn = dn * kn / 15 := by
  have hblocks : ∀ d0 i k : Nat, scoreBlockN d0 = true → i < 20 → k < 81 →
      scoreCheckN (d0 + i + 1) (k + 1) = true := by
    intro d0 i k hb hi hk
    unfold scoreBlockN at hb
    rw [List.all_eq_true] at hb
    have h2 := hb i (List.mem_range.mpr hi)
    rw [List.all_eq_true] at h2
    exact h2 k (List.mem_range.mpr hk)
  have hgoal : scoreCheckN dn kn = true := by
    rcases (by omega : dn - 1 < 20 ∨ (20 ≤ dn - 1 ∧ dn - 1 < 40) ∨
        (40 ≤ dn - 1 ∧ dn - 1 < 60)) with h | h | h
    · have hx := hblocks 0 (dn - 1) (kn - 1) scoreBlockN_0 (by omega) (by omega)
      have e1 : 0 + (dn - 1) + 1 = dn := by omega
      have e2 : kn - 1 + 1 = kn := by omega
      rw [e1, e2] at hx
      exact hx
    · have hx := hblocks 20 (dn - 21) (kn - 1) scoreBlockN_20 (by omega) (by omega)
      have e1 : 20 + (dn - 21) + 1 = dn := by omega
      have e2 : kn - 1 + 1 = kn := by omega
      rw [e1, e2] at hx
      exact hx
    · have hx := hblocks 40 (dn - 41) (kn - 1) scoreBlockN_40 (by omega) (by omega)
      have e1 : 40 + (dn - 41) + 1 = dn := by omega
      have e2 : kn - 1 + 1 = kn := by omega
      rw [e1, e2] at hx
      exact hx
  unfold scoreCheckN at hgoal
  rw [beq_iff_eq] at hgoal
  exact hgoal

/-- C5 (amended).  For every `guess_count ≥ 0` and every difficulty in the
validated range `1..60` — the only difficulties the program ever passes to
`SudokuScore`, and a restriction forced by the counterexample, since Python
float rounding departs from the exact floor at difficulties near `2 ^ 53` —
the stored score equals
`floor(difficulty² * (81 - min(80, guess_count)) / max(1, difficulty) / 15)`
in exact arithmetic; in particular the samples `(0, 15) ↦ 81` and
`(81, 15) ↦ 1` hold. -/
theorem sudoku_score_formula (g : Nat) (d : Int) (h1 : 1 ≤ d) (h60 : d ≤ 60) :
    sudoku_score g d =
      some ⌊((d ^ 2 * (81 - min 80 (g : Int)) : Int) : ℚ) /
        ((max 1 d : Int) : ℚ) / 15⌋ ∧
      sudoku_score 0 15 = some 81 ∧ sudoku_score 81 15 = some 1 := by
  refine ⟨?_, by decide, by decide⟩
  have hd0 : d ≠ 0 := by omega
  have hm80 : min 80 (g : Int) ≤ 80 := min_le_left _ _
  have hm0 : 0 ≤ min 80 (g : Int) := le_min (by norm_num) (Int.natCast_nonneg g)
  have hd : ((d.toNat : Nat) : Int) = d := by omega
  have hk : (((81 - min 80 (g : Int)).toNat : Nat) : Int) = 81 - min 80 (g : Int) := by omega
  have harg : (d ^ 2 * (81 - min 80 (g : Int))).toNat =
      d.toNat * d.toNat * (81 - min 80 (g : Int)).toNat := by
    have h2 : d ^ 2 * (81 - min 80 (g : Int)) =
        ((d.toNat * d.toNat * (81 - min 80 (g : Int)).toNat : Nat) : Int) := by
      push_cast
      rw [hd, hk]
      ring
    rw [h2, Int.toNat_ofNat]
  have hden : (max 1 d).toNat = d.toNat := by omega
  have hpipe := scoreCheckN_valid d.toNat (81 - min 80 (g : Int)).toNat
    (by omega) (by omega) (by omega) (by omega)
  unfold sudoku_score
  rw [if_neg hd0, harg, hden, hpipe]
  have hdq : ((d : Int) : ℚ) ≠ 0 := Int.cast_ne_zero.mpr hd0
  rw [max_eq_right h1]
  have hql : ((d ^ 2 * (81 - min 80 (g : Int)) : Int) : ℚ) / ((d : Int) : ℚ) =
      ((d * (81 - min 80 (g : Int)) : Int) : ℚ) := by
    rw [div_eq_iff hdq]
    push_cast
    ring
  rw [hql]
  have h15 : (15 : ℚ) = ((15 : Nat) : ℚ) := by norm_cast
  rw [h15, Rat.floor_intCast_div_natCast]
  have hnum : d * (81 - min 80 (g : Int)) =
      ((d.toNat * (81 - min 80 (g : Int)).toNat : Nat) : Int) := by
    push_cast
    rw [hd, hk]
  rw [hnum]
  congr 1

/-- Witness for the amended C5 at `guess_count = 0`, `difficulty = 15`. -/
theorem sudoku_score_formula_witness :
    ((1 : Int) ≤ 15 ∧ (15 : Int) ≤ 60) ∧
      (sudoku_score 0 15 =
        some ⌊(((15 : Int) ^ 2 * (81 - min 80 ((0 : Nat) : Int)) : Int) : ℚ) /
          ((max 1 (15 : Int) : Int) : ℚ) / 15⌋ ∧
        sudoku_score 0 15 = some 81 ∧ sudoku_score 81 15 = some 1) :=
  ⟨⟨by norm_num, by norm_num⟩, sudoku_score_formula 0 15 (by norm_num) (by norm_num)⟩

/-! ### C4, C7, C10: the digit permutation of `randomize_board` -/

/-- State of the pairing loop of `randomize_board`: the still-available
digits (the Python set `remapable_nums`, kept as a list) and the
association list of the conversions recorded so far.  Later assignments to
the Python dict `convert` are consed at the front, so `List.lookup` sees
the most recent assignment first, exactly like the dict. -/
structure RandState where
  avail : List Nat
  conv : List (Nat × Nat)

/-- Modelling `random.choice` on a non-empty list: the stream value for
this step, reduced modulo the size of the list, selects the element. -/
def pickFrom (σ : Nat → Nat) (step : Nat) (l : List Nat) : Nat :=
  l.getD (σ step % l.length) 0

/-- One iteration of the pairing loop at digit `i`: if `i` was already
used (removed from the available set), skip; otherwise draw a target `t`
from all the still-available digits (possibly `i` itself), discard both
`t` and `i`, and record `convert[t] = i` followed by `convert[i] = t`. -/
def randomizeStep (σ : Nat → Nat) (i : Nat) (s : RandState) : RandState :=
  if i ∈ s.avail then
    { avail := (s.avail.erase (pickFrom σ i s.avail)).erase i,
      conv := (i, pickFrom σ i s.avail) :: (pickFrom σ i s.avail, i) :: s.conv }
  else s

/-- The pairing-loop state after the iterations `i = 1, ..., k` of
`for i in range(1, 10)`. -/
def stateAfter (σ : Nat → Nat) : Nat → RandState
  | 0 => { avail := [1, 2, 3, 4, 5, 6, 7, 8, 9], conv := [] }
  | k + 1 => randomizeStep σ (k + 1) (stateAfter σ k)

/-- The digit conversion map built by one run of `randomize_board`. -/
def buildConvert (σ : Nat → Nat) : List (Nat × Nat) := (stateAfter σ 9).conv

/-- The dict access `convert[x]`. -/
def convertAt (σ : Nat → Nat) (x : Nat) : Option Nat := (buildConvert σ).lookup x

theorem lookup_cons_of_ne {x a b : Nat} (l : List (Nat × Nat)) (h : x ≠ a) :
    ((a, b) :: l).lookup x = l.lookup x := by
  simp [List.lookup, beq_eq_false_iff_ne.mpr h]

/-- The loop invariant of the pairing loop: after step `k` the available
digits are distinct digits above `k`, unused digits have no conversion
entry, and every used digit has a conversion entry that is itself a used
digit pointing back at it. -/
theorem stateAfter_inv (σ : Nat → Nat) :
    ∀ k, k ≤ 9 →
      (stateAfter σ k).avail.Nodup ∧
      (∀ x ∈ (stateAfter σ k).avail, k < x ∧ x ≤ 9) ∧
      (∀ x ∈ (stateAfter σ k).avail, (stateAfter σ k).conv.lookup x = none) ∧
      (∀ x, 1 ≤ x → x ≤ 9 → x ∉ (stateAfter σ k).avail →
        ∃ y, (stateAfter σ k).conv.lookup x = some y ∧ 1 ≤ y ∧ y ≤ 9 ∧
          y ∉ (stateAfter σ k).avail ∧ (stateAfter σ k).conv.lookup y = some x) := by
  intro k
  induction k with
  | zero =>
    intro _
    refine ⟨(by decide : ([1, 2, 3, 4, 5, 6, 7, 8, 9] : List Nat).Nodup),
      (by decide : ∀ x ∈ ([1, 2, 3, 4, 5, 6, 7, 8, 9] : List Nat), 0 < x ∧ x ≤ 9),
      (by decide : ∀ x ∈ ([1, 2, 3, 4, 5, 6, 7, 8, 9] : List Nat),
        ([] : List (Nat × Nat)).lookup x = none), ?_⟩
    intro x h1 h9 hnot
    exfalso
    apply hnot
    show x ∈ [1, 2, 3, 4, 5, 6, 7, 8, 9]
    simp only [List.mem_cons, List.not_mem_nil, or_false]
    omega
  | succ k ih =>
    intro hk9
    obtain ⟨hnd, hbound, hnone, hpairs⟩ := ih (by omega)
    show _ ∧ _
    rw [stateAfter, randomizeStep]
    by_cases hmem : (k + 1) ∈ (stateAfter σ k).avail
    · rw [if_pos hmem]
      have havail_ne : (stateAfter σ k).avail ≠ [] := by
        intro h
        rw [h] at hmem
        exact absurd hmem (List.not_mem_nil _)
      have hlen : 0 < (stateAfter σ k).avail.length := List.length_pos.mpr havail_ne
      have hidx : σ (k + 1) % (stateAfter σ k).avail.length <
          (stateAfter σ k).avail.length := Nat.mod_lt _ hlen
      have ht_mem : pickFrom σ (k + 1) (stateAfter σ k).avail ∈ (stateAfter σ k).avail := by
        unfold pickFrom
        rw [List.getD_eq_getElem?_getD, List.getElem?_eq_getElem hidx]
        exact List.getElem_mem hidx
      set t := pickFrom σ (k + 1) (stateAfter σ k).avail with ht_def
      have ht_bound := hbound t ht_mem
      have hnd2 : ((stateAfter σ k).avail.erase t).Nodup := hnd.erase t
      have hmem2 : ∀ x, x ∈ ((stateAfter σ k).avail.erase t).erase (k + 1) ↔
          x ≠ (k + 1) ∧ x ≠ t ∧ x ∈ (stateAfter σ k).avail := by
        intro x
        rw [List.Nodup.mem_erase_iff hnd2, List.Nodup.mem_erase_iff hnd]
      have hlook1 : ((k + 1, t) :: (t, k + 1) :: (stateAfter σ k).conv).lookup (k + 1) =
          some t := by simp [List.lookup]
      have hlook2 : ((k + 1, t) :: (t, k + 1) :: (stateAfter σ k).conv).lookup t =
          some (k + 1) := by
        by_cases he : t = k + 1
        · simp [he, List.lookup]
        · rw [lookup_cons_of_ne _ he]; simp [List.lookup]
      have hlook_other : ∀ x, x ≠ k + 1 → x ≠ t →
          ((k + 1, t) :: (t, k + 1) :: (stateAfter σ k).conv).lookup x =
            (stateAfter σ k).conv.lookup x := by
        intro x h1 h2
        rw [lookup_cons_of_ne _ h1, lookup_cons_of_ne _ h2]
      refine ⟨hnd2.erase (k + 1), ?_, ?_, ?_⟩
      · intro x hx
        obtain ⟨hx1, hx2, hx3⟩ := (hmem2 x).mp hx
        have := hbound x hx3
        omega
      · intro x hx
        obtain ⟨hx1, hx2, hx3⟩ := (hmem2 x).mp hx
        rw [hlook_other x hx1 hx2]
        exact hnone x hx3
      · intro x h1 h9 hnot
        by_cases hxk : x = k + 1
        · subst hxk
          refine ⟨t, hlook1, by omega, by omega, ?_, hlook2⟩
          intro hin
          exact absurd ((hmem2 t).mp hin).2.1 (by simp)
        · by_cases hxt : x = t
          · subst hxt
            refine ⟨k + 1, hlook2, by omega, by omega, ?_, hlook1⟩
            intro hin
            exact absurd ((hmem2 (k + 1)).mp hin).1 (by simp)
          · have hxold : x ∉ (stateAfter σ k).avail := by
              intro hin
              exact hnot ((hmem2 x).mpr ⟨hxk, hxt, hin⟩)
            obtain ⟨y, hy1, hy2, hy3, hy4, hy5⟩ := hpairs x h1 h9 hxold
            have hyk : y ≠ k + 1 := fun e => hy4 (e ▸ hmem)
            have hyt : y ≠ t := fun e => hy4 (e ▸ ht_mem)
            refine ⟨y, ?_, hy2, hy3, ?_, ?_⟩
            · rw [hlook_other x hxk hxt]; exact hy1
            · intro hin
              exact hy4 ((hmem2 y).mp hin).2.2
            · rw [hlook_other y hyk hyt]; exact hy5
    · rw [if_neg hmem]
      refine ⟨hnd, ?_, hnone, ?_⟩
      · intro x hx
        have := hbound x hx
        have : x ≠ k + 1 := fun e => hmem (e ▸ hx)
        omega
      · intro x h1 h9 hnot
        exact hpairs x h1 h9 hnot

/-- Every digit `1`–`9` has a conversion target in `1`–`9` that converts
back to it: the constructed map pairs the digits up. -/
theorem convert_pairs (σ : Nat → Nat) (x : Nat) (h1 : 1 ≤ x) (h9 : x ≤ 9) :
    ∃ y, convertAt σ x = some y ∧ 1 ≤ y ∧ y ≤ 9 ∧ convertAt σ y = some x := by
  obtain ⟨_, hbound, _, hpairs⟩ := stateAfter_inv σ 9 (by omega)
  have hx : x ∉ (stateAfter σ 9).avail := by
    intro hmem
    have := hbound x hmem
    omega
  obtain ⟨y, hy1, hy2, hy3, hy4, hy5⟩ := hpairs x h1 h9 hx
  have hy : y ∉ (stateAfter σ 9).avail := hy4
  exact ⟨y, hy1, hy2, hy3, hy5⟩

/-- C4.  For every run of `randomize_board` (every sequence of random
choices `σ`), the digit conversion map is a true bijection of `{1..9}`
onto itself: every digit is mapped into `{1..9}`, no two digits share a
target, and every digit of `{1..9}` is some digit's target. -/
theorem randomize_convert_bijective (σ : Nat → Nat) :
    (∀ x, 1 ≤ x → x ≤ 9 → ∃ y, convertAt σ x = some y ∧ 1 ≤ y ∧ y ≤ 9) ∧
    (∀ x1 x2 y, 1 ≤ x1 → x1 ≤ 9 → 1 ≤ x2 → x2 ≤ 9 →
      convertAt σ x1 = some y → convertAt σ x2 = some y → x1 = x2) ∧
    (∀ y, 1 ≤ y → y ≤ 9 → ∃ x, (1 ≤ x ∧ x ≤ 9) ∧ convertAt σ x = some y) := by
  refine ⟨?_, ?_, ?_⟩
  · intro x h1 h9
    obtain ⟨y, hy1, hy2, hy3, _⟩ := convert_pairs σ x h1 h9
    exact ⟨y, hy1, hy2, hy3⟩
  · intro x1 x2 y h11 h19 h21 h29 e1 e2
    obtain ⟨y1, hy1, _, _, hb1⟩ := convert_pairs σ x1 h11 h19
    obtain ⟨y2, hy2, _, _, hb2⟩ := convert_pairs σ x2 h21 h29
    have e3 : y1 = y := by
      rw [hy1] at e1
      exact Option.some_inj.mp e1
    have e4 : y2 = y := by
      rw [hy2] at e2
      exact Option.some_inj.mp e2
    subst e3; subst e4
    rw [hb1] at hb2
    exact Option.some_inj.mp hb2
  · intro y hy1 hy9
    obtain ⟨z, hz1, hz2, hz3, hz4⟩ := convert_pairs σ y hy1 hy9
    exact ⟨z, ⟨hz2, hz3⟩, hz4⟩

/-- Witness for C4: the injectivity clause at the concrete run
`σ = fun _ => 0` (which builds the identity map), at digits `3, 3` with
target `3`. -/
theorem randomize_convert_bijective_witness : (3 : Nat) = 3 :=
  (randomize_convert_bijective (fun _ => 0)).2.1 3 3 3 (by decide) (by decide)
    (by decide) (by decide) (by decide) (by decide)

/-- The property claimed by C7: during the pairing loop, a digit is paired
with itself only when it is the only digit left unpaired. -/
def selfMapOnlyIfLast (σ : Nat → Nat) : Prop :=
  ∀ k, k < 9 → (k + 1) ∈ (stateAfter σ k).avail →
    pickFrom σ (k + 1) (stateAfter σ k).avail = k + 1 →
    (stateAfter σ k).avail = [k + 1]

/-- C7 counterexample.  In the run `σ = fun _ => 0`, the very first pairing
step (digit 1, with all nine digits still unpaired) draws the digit itself
as target: `random.choice` draws from all still-available digits including
the current one, so a self-pair can happen at any step, not only at the
last one. -/
theorem randomize_self_pair_counterexample : ¬ selfMapOnlyIfLast (fun _ => 0) := by
  intro h
  have h0 := h 0 (by decide) (by decide) (by decide)
  exact absurd h0 (by decide)

/-- C7 (amended).  A digit is necessarily paired with itself when it is the
last digit remaining unpaired; at earlier steps the drawn target may
coincide with the chosen digit, since the draw ranges over all
still-available digits including the chosen one. -/
theorem randomize_last_self_pair (σ : Nat → Nat) (k : Nat)
    (h : (stateAfter σ k).avail = [k + 1]) :
    pickFrom σ (k + 1) (stateAfter σ k).avail = k + 1 ∧
      (stateAfter σ (k + 1)).conv.lookup (k + 1) = some (k + 1) := by
  have hpick : pickFrom σ (k + 1) (stateAfter σ k).avail = k + 1 := by
    rw [h]
    unfold pickFrom
    simp [Nat.mod_one]
  refine ⟨hpick, ?_⟩
  show (randomizeStep σ (k + 1) (stateAfter σ k)).conv.lookup (k + 1) = some (k + 1)
  unfold randomizeStep
  rw [if_pos (by rw [h]; exact List.mem_cons_self _ _)]
  rw [hpick]
  simp [List.lookup]

/-- Witness for the amended C7: in the run `σ = fun _ => 0` the first eight
steps pair each digit with itself, so before step 9 only the digit 9 is
left, and the theorem applies. -/
theorem randomize_last_self_pair_witness :
    (stateAfter (fun _ => 0) 8).avail = [9] ∧
      (pickFrom (fun _ => 0) 9 (stateAfter (fun _ => 0) 8).avail = 9 ∧
        (stateAfter (fun _ => 0) 9).conv.lookup 9 = some 9) :=
  ⟨by decide, randomize_last_self_pair (fun _ => 0) 8 (by decide)⟩

/-- Embedding of the final loop of `randomize_board`: every non-blank cell
is replaced by its conversion, blanks stay blank.  (On the boards of the
program a conversion always exists; the `getD` fallback replaces the
`KeyError` a missing dict entry would raise.) -/
def randomize_board (σ : Nat → Nat) (b : Board) : Board :=
  b.map fun row => row.map fun v => if v ≠ 0 then (convertAt σ v).getD 0 else 0

theorem convertCell_involutive (σ : Nat → Nat) (v : Nat) (hv : v ≤ 9) :
    (if (if v ≠ 0 then (convertAt σ v).getD 0 else 0) ≠ 0 then
      (convertAt σ ((if v ≠ 0 then (convertAt σ v).getD 0 else 0))).getD 0 else 0) = v := by
  by_cases h0 : v = 0
  · simp [h0]
  · rw [if_pos h0]
    obtain ⟨y, hy1, hy2, hy3, hy4⟩ := convert_pairs σ v (by omega) hv
    rw [hy1]
    simp only [Option.getD_some]
    rw [if_pos (by omega), hy4]
    rfl

/-- Reading a cell of a cell-wise mapped board applies the cell function,
provided the cell function fixes the blank value. -/
theorem getCell_map (g : Nat → Nat) (hg : g 0 = 0) (b : Board) (r c : Nat) :
    getCell (b.map fun row => row.map g) r c = g (getCell b r c) := by
  unfold getCell
  by_cases hr : r < b.length
  · have h1 : (List.map (fun row => List.map g row) b).getD r [] =
        List.map g (b.getD r []) := by
      rw [List.getD_eq_getElem?_getD (List.map _ b), List.getElem?_map,
        List.getElem?_eq_getElem hr]
      rw [List.getD_eq_getElem?_getD b, List.getElem?_eq_getElem hr]
      rfl
    rw [h1]
    generalize b.getD r [] = row
    by_cases hc : c < row.length
    · rw [List.getD_eq_getElem?_getD (List.map g row), List.getElem?_map,
        List.getElem?_eq_getElem hc, List.getD_eq_getElem?_getD row,
        List.getElem?_eq_getElem hc]
      rfl
    · rw [List.getD_eq_getElem?_getD (List.map g row), List.getElem?_map,
        List.getElem?_eq_none (l := row) (by omega),
        List.getD_eq_getElem?_getD row, List.getElem?_eq_none (l := row) (by omega)]
      simpa using hg.symm
  · have h1 : (List.map (fun row => List.map g row) b).getD r [] = ([] : List Nat) := by
      rw [List.getD_eq_getElem?_getD, List.getElem?_eq_none (by rw [List.length_map]; omega)]
      rfl
    have h2 : b.getD r [] = ([] : List Nat) := by
      rw [List.getD_eq_getElem?_getD (l := b), List.getElem?_eq_none (l := b) (by omega)]
      rfl
    rw [h1, h2]
    simpa using hg.symm

/-- C10.  For every run of `randomize_board`, the conversion map is an
involution (`convert[convert[x]] = x` for every digit), so applying the
conversion twice with the same map restores every cell of the board, and
blank cells are never altered. -/
theorem randomize_board_involution (σ : Nat → Nat) (b : Board)
    (hcells : ∀ row ∈ b, ∀ v ∈ row, v ≤ 9) :
    randomize_board σ (randomize_board σ b) = b ∧
      (∀ x, 1 ≤ x → x ≤ 9 → (convertAt σ x).bind (convertAt σ) = some x) ∧
      (∀ r c, getCell b r c = 0 → getCell (randomize_board σ b) r c = 0) := by
  refine ⟨?_, ?_, ?_⟩
  · unfold randomize_board
    rw [List.map_map]
    have hrows : ∀ row ∈ b,
        ((fun row => List.map (fun v => if v ≠ 0 then (convertAt σ v).getD 0 else 0) row) ∘
          (fun row => List.map (fun v => if v ≠ 0 then (convertAt σ v).getD 0 else 0) row))
          row = id row := by
      intro row hrow
      show List.map _ (List.map _ row) = row
      rw [List.map_map]
      have hcongr : ∀ v ∈ row,
          ((fun v => if v ≠ 0 then (convertAt σ v).getD 0 else 0) ∘
            (fun v => if v ≠ 0 then (convertAt σ v).getD 0 else 0)) v = id v := by
        intro v hv
        exact convertCell_involutive σ v (hcells row hrow v hv)
      rw [List.map_congr_left hcongr, List.map_id]
    rw [List.map_congr_left hrows, List.map_id]
  · intro x h1 h9
    obtain ⟨y, hy1, _, _, hy4⟩ := convert_pairs σ x h1 h9
    rw [hy1]
    simpa using hy4
  · intro r c h0
    show getCell (randomize_board σ b) r c = 0
    unfold randomize_board
    rw [getCell_map _ (by simp) b r c, h0]
    simp

/-- Witness for C10: applying the conversion of the run `σ = fun _ => 0`
twice to a small board restores it. -/
theorem randomize_board_involution_witness :
    randomize_board (fun _ => 0) (randomize_board (fun _ => 0) [[1, 0], [5, 9]]) =
      [[1, 0], [5, 9]] :=
  (randomize_board_involution (fun _ => 0) [[1, 0], [5, 9]] (by decide)).1

/-! ### C8: the score ordering -/

/-- The `SudokuScore` record: what matters for ranking is the stored
integer `score`. -/
structure SudokuScore where
  guess_count : Nat
  difficulty : Int
  score : Int

/-- Embedding of `SudokuScore.__lt__`: `self < other` holds exactly when
`self.score >= other.score`, so sorting with `<` puts larger scores first. -/
def sudokuScoreLt (a b : SudokuScore) : Bool := decide (b.score ≤ a.score)

/-- Modelled from the spec: the sorting algorithm behind `ctx.scores.sort()`
lives in the Python runtime, not in src/.  The spec describes it as a stable
comparison sort driven by `__lt__` (an element `x` is placed before `y` when
`x < y` holds, and ties keep their original relative order); this is the
stable `List.mergeSort` with `sudokuScoreLt` as the comparison. -/
def sortScores (l : List SudokuScore) : List SudokuScore := l.mergeSort sudokuScoreLt

theorem sudokuScoreLt_trans : ∀ (a b c : SudokuScore),
    sudokuScoreLt a b → sudokuScoreLt b c → sudokuScoreLt a c := by
  intro a b c h1 h2
  simp only [sudokuScoreLt, decide_eq_true_eq] at h1 h2 ⊢
  omega

theorem sudokuScoreLt_total : ∀ (a b : SudokuScore),
    sudokuScoreLt a b || sudokuScoreLt b a := by
  intro a b
  simp only [sudokuScoreLt]
  rcases le_total b.score a.score with h | h <;> simp [h]

theorem pairwise_of_all_score_eq (v : Int) : ∀ (c : List SudokuScore),
    (∀ s ∈ c, s.score = v) → c.Pairwise (fun a b => sudokuScoreLt a b = true) := by
  intro c
  induction c with
  | nil => intro _; exact List.Pairwise.nil
  | cons a t ih =>
    intro hall
    constructor
    · intro b hb
      have ha := hall a (List.mem_cons_self a t)
      have hbv := hall b (List.mem_cons_of_mem _ hb)
      simp [sudokuScoreLt, ha, hbv]
    · exact ih (fun s hs => hall s (List.mem_cons_of_mem _ hs))

/-- C8.  Sorting the session's score list with the program's comparison
operator arranges it in descending numeric score order (every score comes
before every strictly smaller score), and scores with equal numeric value
keep their original relative order (the sort moves nothing across an equal
score: the equal-score subsequences of input and output coincide). -/
theorem sort_scores_descending_stable (l : List SudokuScore) :
    (sortScores l).Pairwise (fun a b => b.score ≤ a.score) ∧
      ∀ v : Int, (sortScores l).filter (fun s => s.score == v) =
        l.filter (fun s => s.score == v) := by
  constructor
  · have h : (sortScores l).Pairwise (fun a b => sudokuScoreLt a b = true) :=
      List.sorted_mergeSort sudokuScoreLt_trans sudokuScoreLt_total l
    exact h.imp (fun hab => by simpa [sudokuScoreLt] using hab)
  · intro v
    have hall : ∀ s ∈ l.filter (fun s => s.score == v), s.score = v := by
      intro s hs
      have := List.of_mem_filter hs
      simpa using this
    have hpair := pairwise_of_all_score_eq v _ hall
    have hsub : List.Sublist (l.filter (fun s => s.score == v)) l := List.filter_sublist l
    have hst : List.Sublist (l.filter (fun s => s.score == v)) (sortScores l) :=
      List.sublist_mergeSort sudokuScoreLt_trans sudokuScoreLt_total hpair hsub
    have hsub2 : List.Sublist (l.filter (fun s => s.score == v))
        ((sortScores l).filter (fun s => s.score == v)) := by
      have hself : (l.filter (fun s => s.score == v)).filter (fun s => s.score == v) =
          l.filter (fun s => s.score == v) := by
        rw [List.filter_eq_self]
        intro s hs
        simp [hall s hs]
      have := hst.filter (fun s => s.score == v)
      rwa [hself] at this
    have hperm : List.Perm ((sortScores l).filter (fun s => s.score == v))
        (l.filter (fun s => s.score == v)) :=
      (List.mergeSort_perm l sudokuScoreLt).filter _
    exact (hsub2.eq_of_length hperm.length_eq.symm).symm
